import Mathlib

/-! # Verification of the TrustBridge tbenc/v1 chunked encryption format

Shallow embedding of `src/cli/trustbridge_cli/crypto_tbenc.py`, of the
manifest loader in `src/cli/trustbridge_cli/commands/edc.py`, of
`src/cli/trustbridge_cli/common/validation.py`, and of the e2e blob server
`e2e/blob-server/server.py`.

Modelling conventions:
* Python `bytes` values are `List Nat` with entries below 256.
* Python `str` values are `List Char` (for the validation functions) or
  `String` (for manifest keys and error channels).
* `struct.pack(">H" / ">B" / ">I" / ">Q", n)` is `beBytes 2/1/4/8 n`; the
  embedding is used only at in-range arguments, where it agrees with the
  source (`struct.pack` raises on out-of-range input; where that behaviour
  matters — packing `chunk_bytes` into the header — the embedding checks the
  bound explicitly).
* The AES-256-GCM primitive from the `cryptography` library is an abstract
  parameter `enc : nonce → aad → plaintext → ciphertext‖tag`; theorems that
  need its guarantees take them as hypotheses (`(enc n a p).length =
  p.length + 16`, and for round trips a matching `dec`).
* `hashlib.sha256`'s incremental interface is modelled by accumulating the
  exact byte sequence fed to the hasher; the hex digest is an abstract
  function of those bytes.
* Functions that raise Python exceptions return `Except String`.
-/

namespace TrustBridge

/-- Big-endian fixed-width integer encoding: the bytes of
`struct.pack(">…", n)` for width `w` (most significant byte first). -/
def beBytes (w n : Nat) : List Nat :=
  (List.range w).map (fun i => n / 256 ^ (w - 1 - i) % 256)

/-- Big-endian decoding of a byte list (inverse of `beBytes` on in-range
values). -/
def beVal (bs : List Nat) : Nat :=
  bs.foldl (fun acc b => acc * 256 + b) 0

/-- `MAGIC = b"TBENC001"` (crypto_tbenc.py line 35). -/
def MAGIC : List Nat := [0x54, 0x42, 0x45, 0x4E, 0x43, 0x30, 0x30, 0x31]

/-- `VERSION = 1` (crypto_tbenc.py line 36). -/
def VERSION : Nat := 1

/-- `ALGO_AES_GCM_CHUNKED = 1` (crypto_tbenc.py line 37). -/
def ALGO_AES_GCM_CHUNKED : Nat := 1

/-- `HEADER_SIZE = 32` (crypto_tbenc.py line 38). -/
def HEADER_SIZE : Nat := 32

/-- `NONCE_PREFIX_SIZE = 4` (crypto_tbenc.py line 39). -/
def NONCE_PREFIX_SIZE : Nat := 4

/-- `TAG_SIZE = 16` (crypto_tbenc.py line 41). -/
def TAG_SIZE : Nat := 16

/-- The 32 header bytes assembled by `_build_header`'s happy path
(crypto_tbenc.py lines 55-80): a zero-filled 32-byte buffer receives, in
order, the magic, the packed version, algorithm and chunk size, and the
nonce prefix; the remaining 13 reserved bytes stay zero. -/
def headerBytes (chunk_bytes : Nat) ( nonce_prefix : List Nat) : List Nat :=
  MAGIC ++ beBytes 2 VERSION ++ beBytes 1 ALGO_AES_GCM_CHUNKED
    ++ beBytes 4 chunk_bytes ++ nonce_prefix ++ List.replicate 13 0

/-- `_build_header(chunk_bytes, nonce_prefix)` (crypto_tbenc.py lines
50-80).  The only explicit check is the nonce-prefix length (line 52);
`struct.pack_into(">I", …, chunk_bytes)` additionally raises `struct.error`
when `chunk_bytes` does not fit an unsigned 32-bit field. -/
def build_header (chunk_bytes : Nat) ( nonce_prefix : List Nat) :
    Except String (List Nat) :=
  if nonce_prefix.length ≠ NONCE_PREFIX_SIZE then
    .error "nonce_prefix must be 4 bytes"
  else if 2 ^ 32 ≤ chunk_bytes then
    .error "struct.error: argument out of range"
  else
    .ok (headerBytes chunk_bytes nonce_prefix)

/-- `_derive_nonce( nonce_prefix, chunk_index)` (crypto_tbenc.py lines
83-90): the 4 prefix bytes followed by the 8-byte big-endian counter. -/
def derive_nonce ( nonce_prefix : List Nat) (chunk_index : Nat) : List Nat :=
  nonce_prefix ++ beBytes 8 chunk_index

/-- `_build_aad(magic, version, algo, chunk_bytes, nonce_prefix,
chunk_index, pt_len)` (crypto_tbenc.py lines 93-115). -/
def build_aad (magic : List Nat) (version algo chunk_bytes : Nat)
    ( nonce_prefix : List Nat) (chunk_index pt_len : Nat) : List Nat :=
  magic ++ beBytes 2 version ++ beBytes 1 algo ++ beBytes 4 chunk_bytes
    ++ nonce_prefix ++ beBytes 8 chunk_index ++ beBytes 4 pt_len

/-- Fuel-indexed helper for `chunksOf`; the fuel only serves to make the
recursion structural (each loop iteration consumes at least one byte, so
`p.length` fuel always suffices — see `chunksOf_eq`). -/
def chunksOfFuel : Nat → Nat → List Nat → List (List Nat)
  | 0, _, _ => []
  | fuel + 1, chunk_bytes, p =>
    if chunk_bytes = 0 ∨ p = [] then []
    else p.take chunk_bytes :: chunksOfFuel fuel chunk_bytes (p.drop chunk_bytes)

/-- The sequence of chunks delivered by the read loop of `encrypt_file`
(crypto_tbenc.py lines 155-159): `fin.read(chunk_bytes)` on a regular file
returns `min(chunk_bytes, remaining)` bytes, and the loop stops at the
first empty read (immediately, if `chunk_bytes = 0`, since `read(0)`
returns no bytes). -/
def chunksOf (chunk_bytes : Nat) (p : List Nat) : List (List Nat) :=
  chunksOfFuel p.length chunk_bytes p

/-- State of the encryption loop of `encrypt_file` (crypto_tbenc.py lines
145-189): the bytes written to the output file so far (`out`), the bytes
fed to the SHA-256 hasher so far (`hashed`), the accumulated
`plaintext_size`, and the running `chunk_index`. -/
structure EncState where
  out : List Nat
  hashed : List Nat
  plaintext_size : Nat
  chunk_index : Nat
deriving DecidableEq

/-- One iteration of the `while` loop of `encrypt_file` (crypto_tbenc.py
lines 155-189) applied to the chunk read for this iteration: derive the
nonce and AAD, encrypt, write the 4-byte record header and the
ciphertext-with-tag to the file, and feed the same bytes to the hasher. -/
def encryptStep (enc : List Nat → List Nat → List Nat → List Nat)
    (chunk_bytes : Nat) ( nonce_prefix : List Nat)
    (st : EncState) (plaintext_chunk : List Nat) : EncState :=
  let pt_len := plaintext_chunk.length
  let nonce := derive_nonce nonce_prefix st.chunk_index
  let aad := build_aad MAGIC VERSION ALGO_AES_GCM_CHUNKED chunk_bytes
    nonce_prefix st.chunk_index pt_len
  let ciphertext_with_tag := enc nonce aad plaintext_chunk
  let record_header := beBytes 4 pt_len
  { out := st.out ++ record_header ++ ciphertext_with_tag
    hashed := st.hashed ++ record_header ++ ciphertext_with_tag
    plaintext_size := st.plaintext_size + pt_len
    chunk_index := st.chunk_index + 1 }

/-- `encrypt_file(input_path, output_path, key, chunk_bytes)`
(crypto_tbenc.py lines 118-192).  The AES-256-GCM context `AESGCM(key)` is
the abstract parameter `enc` (nonce → aad → plaintext → ciphertext‖tag);
the random `nonce_prefix = os.urandom(4)` is a parameter; the input file
contents are `plaintext`.  Returns the bytes written to the output file,
the bytes fed to the SHA-256 hasher (whose hex digest is the first
component of the Python return value), and `plaintext_size`. -/
def encrypt_file (enc : List Nat → List Nat → List Nat → List Nat)
    (key : List Nat) ( nonce_prefix : List Nat) (plaintext : List Nat)
    (chunk_bytes : Nat) : Except String (List Nat × List Nat × Nat) :=
  if key.length ≠ 32 then
    .error "Key must be 32 bytes for AES-256"
  else if chunk_bytes < 1024 ∨ chunk_bytes > 64 * 1024 * 1024 then
    .error "chunk_bytes must be between 1KB and 64MB"
  else
    match build_header chunk_bytes nonce_prefix with
    | .error e => .error e
    | .ok header =>
      let final := (chunksOf chunk_bytes plaintext).foldl
        (encryptStep enc chunk_bytes nonce_prefix)
        { out := header, hashed := header, plaintext_size := 0, chunk_index := 0 }
      .ok (final.out, final.hashed, final.plaintext_size)

/-- The bytes of the single record that `encrypt_file` emits for
`plaintext_chunk` at `chunk_index`: the 4-byte big-endian `pt_len`
followed by the AEAD output (ciphertext plus 16-byte tag). -/
def record_bytes (enc : List Nat → List Nat → List Nat → List Nat)
    (chunk_bytes : Nat) ( nonce_prefix : List Nat) (chunk_index : Nat)
    (plaintext_chunk : List Nat) : List Nat :=
  beBytes 4 plaintext_chunk.length
    ++ enc (derive_nonce nonce_prefix chunk_index)
      (build_aad MAGIC VERSION ALGO_AES_GCM_CHUNKED chunk_bytes nonce_prefix
        chunk_index plaintext_chunk.length)
      plaintext_chunk

/-- The concatenated record bytes for the chunk list `cs` starting at
`chunk_index` — the closed form of what the encryption loop appends after
the header. -/
def recsFrom (enc : List Nat → List Nat → List Nat → List Nat)
    (chunk_bytes : Nat) ( nonce_prefix : List Nat) (chunk_index : Nat) :
    List (List Nat) → List Nat
  | [] => []
  | c :: cs =>
    record_bytes enc chunk_bytes nonce_prefix chunk_index c
      ++ recsFrom enc chunk_bytes nonce_prefix (chunk_index + 1) cs

/-- The manifest dictionary assembled by `write_manifest`
(crypto_tbenc.py lines 195-225). -/
structure Manifest where
  format : String
  algo : String
  chunk_bytes : Nat
  plaintext_bytes : Nat
  sha256_ciphertext : String
  asset_id : String
  weights_filename : String
deriving DecidableEq

/-- `write_manifest(manifest_path, asset_id, weights_filename, chunk_bytes,
plaintext_bytes, sha256_ciphertext)` (crypto_tbenc.py lines 195-225),
modelled as the manifest value it serializes to `manifest_path`. -/
def write_manifest (asset_id weights_filename : String)
    (chunk_bytes plaintext_bytes : Nat) (sha256_ciphertext : String) :
    Manifest :=
  { format := "tbenc/v1"
    algo := "aes-256-gcm-chunked"
    chunk_bytes := chunk_bytes
    plaintext_bytes := plaintext_bytes
    sha256_ciphertext := sha256_ciphertext
    asset_id := asset_id
    weights_filename := weights_filename }

/-- `encrypt_and_generate_manifest(input_path, output_dir, asset_id,
chunk_bytes, output_filename)` (crypto_tbenc.py lines 228-270): encrypt,
then write the manifest from the returned hash and byte count.  `hashFn`
models `hashlib.sha256(·).hexdigest()` applied to the bytes fed to the
hasher; the freshly generated 32-byte key and the 4-byte nonce prefix are
parameters.  Returns the ciphertext bytes and the manifest value. -/
def encrypt_and_generate_manifest
    (enc : List Nat → List Nat → List Nat → List Nat)
    (hashFn : List Nat → String) (key nonce_prefix plaintext : List Nat)
    (asset_id : String) (chunk_bytes : Nat) (output_filename : String) :
    Except String (List Nat × Manifest) :=
  match encrypt_file enc key nonce_prefix plaintext chunk_bytes with
  | .error e => .error e
  | .ok (out, hashed, plaintext_size) =>
    .ok (out, write_manifest asset_id output_filename chunk_bytes
      plaintext_size (hashFn hashed))

/-! ### The decryption engine

The repository ships no decryption engine (only the encoder, its tests and
mock collaborators are present); the definitions in this subsection are
modelled from the specification, §4.1 and §4.4. -/

/-- Modelled from the spec: `parse_header(bytes) → {chunk_bytes,
nonce_prefix}` of §4.1 — the decoder-side header parser, absent from the
repository.  Checks magic, version, algorithm, the `chunk_bytes` range and
the zero reserved bytes, and extracts `chunk_bytes` and `nonce_prefix`. -/
def parse_header (bs : List Nat) : Except String (Nat × List Nat) :=
  if bs.length < HEADER_SIZE then .error "InvalidHeader: truncated header"
  else if bs.take 8 ≠ MAGIC then .error "BadMagic"
  else if beVal ((bs.drop 8).take 2) ≠ VERSION then .error "UnsupportedVersion"
  else if beVal ((bs.drop 10).take 1) ≠ ALGO_AES_GCM_CHUNKED then
    .error "UnsupportedAlgorithm"
  else if beVal ((bs.drop 11).take 4) < 1024 ∨
      67108864 < beVal ((bs.drop 11).take 4) then
    .error "InvalidParameter"
  else if (bs.drop 19).take 13 ≠ List.replicate 13 0 then
    .error "InvalidHeader: nonzero reserved bytes"
  else .ok (beVal ((bs.drop 11).take 4), (bs.drop 15).take 4)

/-- Fuel-indexed helper for `decryptRecords`; the fuel only makes the
recursion structural (each record consumes at least 21 bytes, so
`bs.length` fuel always suffices — see `decryptRecords_eq`). -/
def decryptRecordsFuel (dec : List Nat → List Nat → List Nat → Option (List Nat))
    (chunk_bytes : Nat) ( nonce_prefix : List Nat) :
    Nat → Nat → List Nat → Except String (List Nat)
  | 0, _, bs => if bs = [] then .ok [] else .error "InvalidRecord: out of fuel"
  | fuel + 1, chunk_index, bs =>
    if bs = [] then .ok []
    else if bs.length < 4 then .error "InvalidRecord: short length prefix"
    else if beVal (bs.take 4) = 0 then .error "InvalidRecord: zero-length record"
    else if (bs.drop 4).length < beVal (bs.take 4) + TAG_SIZE then
      .error "InvalidRecord: short record"
    else
      match dec (derive_nonce nonce_prefix chunk_index)
          (build_aad MAGIC VERSION ALGO_AES_GCM_CHUNKED chunk_bytes
            nonce_prefix chunk_index (beVal (bs.take 4)))
          ((bs.drop 4).take (beVal (bs.take 4) + TAG_SIZE)) with
      | none => .error "AuthenticationFailed"
      | some pt =>
        match decryptRecordsFuel dec chunk_bytes nonce_prefix fuel
            (chunk_index + 1) ((bs.drop 4).drop (beVal (bs.take 4) + TAG_SIZE)) with
        | .error e => .error e
        | .ok tail => .ok (pt ++ tail)

/-- Modelled from the spec: the record loop of `decrypt_into_sink` (§4.4,
steps 3-5), absent from the repository.  For `chunk_index = 0, 1, …`: read
the 4-byte `pt_len` (failing `InvalidRecord` on a short read or on
`pt_len = 0`), read `pt_len + 16` bytes of ciphertext-and-tag, derive the
nonce, build the AAD, AEAD-decrypt (failing `AuthenticationFailed` on tag
rejection) and deliver the plaintext in order. -/
def decryptRecords (dec : List Nat → List Nat → List Nat → Option (List Nat))
    (chunk_bytes : Nat) ( nonce_prefix : List Nat) (chunk_index : Nat)
    (bs : List Nat) : Except String (List Nat) :=
  decryptRecordsFuel dec chunk_bytes nonce_prefix bs.length chunk_index bs

/-- Modelled from the spec: the parse-and-decrypt phase of
`decrypt_into_sink` (§4.4, steps 2-3), absent from the repository: parse
the first 32 bytes as the header, then authenticated-decrypt every record
in order.  `dec` abstracts AES-256-GCM decryption (nonce → aad →
ciphertext‖tag → plaintext, `none` on tag failure). -/
def decrypt_stream (dec : List Nat → List Nat → List Nat → Option (List Nat))
    (ciphertext : List Nat) : Except String (List Nat) :=
  match parse_header (ciphertext.take HEADER_SIZE) with
  | .error e => .error e
  | .ok (chunk_bytes, nonce_prefix) =>
    decryptRecords dec chunk_bytes nonce_prefix 0 (ciphertext.drop HEADER_SIZE)

/-! ### The manifest loader of the register command -/

/-- A JSON value as produced by `json.load`, restricted to the shapes a
manifest can contain. -/
inductive JVal where
  | str (s : String)
  | int (n : Int)
  | boolean (b : Bool)
  | null
deriving DecidableEq

/-- A parsed JSON object: the dictionary `json.load` returns. -/
abbrev JObj := List (String × JVal)

/-- The `required_fields` list of `_load_manifest` (edc.py lines 52-59). -/
def required_fields : List String :=
  ["format", "algo", "chunk_bytes", "plaintext_bytes", "sha256_ciphertext",
   "asset_id"]

/-- `f in manifest` for a parsed JSON object. -/
def hasField (manifest : JObj) (f : String) : Bool :=
  manifest.any (fun kv => kv.1 == f)

/-- `_load_manifest(manifest_path)` (edc.py lines 34-81) applied to the
already-parsed JSON object: collect the required fields that are absent;
raise `ValidationError` if any is missing, otherwise return the manifest
unchanged. -/
def load_manifest (manifest : JObj) : Except String JObj :=
  let missing_fields := required_fields.filter (fun f => ! hasField manifest f)
  if missing_fields.isEmpty then .ok manifest
  else .error "Manifest is missing required fields"

/-! ### Filesystem effects of the encoder -/

/-- A primitive filesystem operation, for tracing which paths the encoder
touches and how. -/
inductive FsOp where
  | openw (path : String)
  | write (path : String)
  | rename (src dst : String)
  | remove (path : String)
deriving DecidableEq

/-- Whether an operation involves the given path. -/
def FsOp.touches : FsOp → String → Bool
  | .openw p, q => p == q
  | .write p, q => p == q
  | .remove p, q => p == q
  | .rename a b, q => a == q || b == q

/-- Whether an operation is a rename. -/
def FsOp.isRename : FsOp → Bool
  | .rename _ _ => true
  | _ => false

/-- Whether an operation is a removal. -/
def FsOp.isRemove : FsOp → Bool
  | .remove _ => true
  | _ => false

/-- The filesystem operations of one `while`-loop iteration of
`encrypt_file` (crypto_tbenc.py lines 155-189), with a fallible AEAD
(`none` models `aesgcm.encrypt` raising): on success the iteration writes
the record header and the ciphertext-with-tag to the output file; on
failure the exception propagates out of the `with` block, which closes —
but does not delete — the output file. -/
def encryptOpsLoop (enc : List Nat → List Nat → List Nat → Option (List Nat))
    (chunk_bytes : Nat) ( nonce_prefix : List Nat) (output_path : String)
    (chunk_index : Nat) : List (List Nat) → List FsOp × Bool
  | [] => ([], true)
  | c :: cs =>
    match enc (derive_nonce nonce_prefix chunk_index)
        (build_aad MAGIC VERSION ALGO_AES_GCM_CHUNKED chunk_bytes nonce_prefix
          chunk_index c.length) c with
    | none => ([], false)
    | some _ =>
      let rec_ops := encryptOpsLoop enc chunk_bytes nonce_prefix output_path
        (chunk_index + 1) cs
      (FsOp.write output_path :: FsOp.write output_path :: rec_ops.1,
        rec_ops.2)

/-- The filesystem operations of `encrypt_file` (crypto_tbenc.py lines
136-192): parameter validation happens before any file is opened; then the
output file is opened (created/truncated), the header is written, and the
loop runs.  No branch of the function renames or removes anything. -/
def encrypt_file_ops (enc : List Nat → List Nat → List Nat → Option (List Nat))
    (key nonce_prefix plaintext : List Nat) (chunk_bytes : Nat)
    (output_path : String) : List FsOp × Bool :=
  if key.length ≠ 32 then ([], false)
  else if chunk_bytes < 1024 ∨ chunk_bytes > 64 * 1024 * 1024 then ([], false)
  else
    match build_header chunk_bytes nonce_prefix with
    | .error _ => ([FsOp.openw output_path], false)
    | .ok _ =>
      let rec_ops := encryptOpsLoop enc chunk_bytes nonce_prefix output_path 0
        (chunksOf chunk_bytes plaintext)
      (FsOp.openw output_path :: FsOp.write output_path :: rec_ops.1,
        rec_ops.2)

/-- The filesystem operations of `write_manifest` (crypto_tbenc.py lines
224-225): `open(manifest_path, "w")` followed by `json.dump` writing into
it — directly at the final path, with no temporary file and no rename. -/
def write_manifest_ops (manifest_path : String) : List FsOp :=
  [FsOp.openw manifest_path, FsOp.write manifest_path]

/-- The filesystem operations of `encrypt_and_generate_manifest`
(crypto_tbenc.py lines 248-270) on the ciphertext and manifest paths:
encrypt first; only if encryption succeeded, write the manifest. -/
def encrypt_and_generate_manifest_ops
    (enc : List Nat → List Nat → List Nat → Option (List Nat))
    (key nonce_prefix plaintext : List Nat) (chunk_bytes : Nat)
    (output_path manifest_path : String) : List FsOp × Bool :=
  let enc_ops := encrypt_file_ops enc key nonce_prefix plaintext chunk_bytes
    output_path
  if enc_ops.2 then (enc_ops.1 ++ write_manifest_ops manifest_path, true)
  else (enc_ops.1, false)

/-! ### Hex-string validation -/

/-- Membership in the character class `[0-9a-fA-F]` of the regex in
`validate_hex_string` (validation.py line 249). -/
def isHexChar (c : Char) : Bool :=
  ('0' ≤ c && c ≤ '9') || ('a' ≤ c && c ≤ 'f') || ('A' ≤ c && c ≤ 'F')

/-- `validate_hex_string(hex_string, expected_bytes)` (validation.py lines
230-262): reject the empty string, reject any character outside
`[0-9a-fA-F]` (the regex `^[0-9a-fA-F]+$`), and, when `expected_bytes` is
given, reject any length other than `2 * expected_bytes`. -/
def validate_hex_string (hex_string : List Char) (expected_bytes : Option Nat) :
    Except String Unit :=
  if hex_string.isEmpty then .error "Hex string cannot be empty"
  else if ! hex_string.all isHexChar then
    .error "Invalid hexadecimal string - must contain only 0-9, a-f, A-F"
  else
    match expected_bytes with
    | none => .ok ()
    | some expected_bytes =>
      if hex_string.length ≠ expected_bytes * 2 then
        .error "Hex string has the wrong length for the expected bytes"
      else .ok ()

/-! ### The blob server's artifact endpoint -/

/-- `".." in filename` (server.py line 135). -/
def containsDotDot : List Char → Bool
  | '.' :: '.' :: _ => true
  | _ :: rest => containsDotDot rest
  | [] => false

/-- `filename.startswith("/")` (server.py line 135). -/
def startsWithSlash : List Char → Bool
  | '/' :: _ => true
  | _ => false

/-- `os.path.join(DATA_DIR, filename)` (server.py line 139): an absolute
`filename` replaces the directory, otherwise the components are joined
with a separator. -/
def os_path_join (data_dir filename : List Char) : List Char :=
  if startsWithSlash filename then filename else data_dir ++ '/' :: filename

/-- Outcome of a `get_artifact` request. -/
inductive BlobResult where
  | invalidFilename
  | fileNotFound
  | served (file_path : List Char)
deriving DecidableEq

/-- `get_artifact(filename)` (server.py lines 126-153), with the `HEAD` /
range-serving tail collapsed into `served file_path` (both branches read
the file at `file_path` and nothing else): reject filenames containing
`".."` or starting with `"/"` with 400 Invalid filename before building
`file_path`; 404 when `file_path` is not a file; otherwise serve it. -/
def get_artifact (data_dir : List Char) (isfile : List Char → Bool)
    (filename : List Char) : BlobResult :=
  if containsDotDot filename || startsWithSlash filename then
    .invalidFilename
  else
    let file_path := os_path_join data_dir filename
    if ! isfile file_path then .fileNotFound
    else .served file_path

/-! ### Concrete instances used by witnesses -/

/-- A concrete total AEAD used to instantiate the abstract cipher in
witnesses: ciphertext = plaintext, tag = 16 zero bytes. -/
def encW (nonce aad plaintext : List Nat) : List Nat :=
  plaintext ++ List.replicate 16 0

/-- The matching witness decryption: strip the 16-byte tag. -/
def decW (nonce aad cwt : List Nat) : Option (List Nat) :=
  if 16 ≤ cwt.length then some (cwt.take (cwt.length - 16)) else none

/-- A fallible witness AEAD that always raises, to exercise the failure
path of the encoder. -/
def encNoneW (nonce aad plaintext : List Nat) : Option (List Nat) := none

/-- A total witness AEAD in `Option` form, to exercise the success path of
the effectful encoder model. -/
def encSomeW (nonce aad plaintext : List Nat) : Option (List Nat) :=
  some (encW nonce aad plaintext)

/-- A concrete stand-in for `hashlib.sha256(·).hexdigest()` in witnesses
(the theorems hold for every hash function). -/
def hashW (bs : List Nat) : String :=
  toString (beVal bs)

theorem chunksOfFuel_congr : ∀ (f₁ f₂ chunk_bytes : Nat) (p : List Nat),
    p.length ≤ f₁ → p.length ≤ f₂ →
    chunksOfFuel f₁ chunk_bytes p = chunksOfFuel f₂ chunk_bytes p := by
  intro f₁
  induction f₁ with
  | zero =>
    intro f₂ cb p h1 _
    have hp : p = [] := List.eq_nil_of_length_eq_zero (Nat.le_zero.mp h1)
    subst hp
    cases f₂ <;> simp [chunksOfFuel]
  | succ f ih =>
    intro f₂ cb p h1 h2
    match p with
    | [] => cases f₂ <;> simp [chunksOfFuel]
    | a :: rest =>
      match f₂ with
      | 0 => simp at h2
      | g + 1 =>
        simp only [chunksOfFuel]
        by_cases hcb : cb = 0
        · simp [hcb]
        · simp only [hcb, false_or, or_false, reduceCtorEq, if_neg, not_false_iff]
          have hlen : ((a :: rest).drop cb).length ≤ f := by
            simp only [List.length_drop, List.length_cons]
            simp only [List.length_cons] at h1
            omega
          have hlen' : ((a :: rest).drop cb).length ≤ g := by
            simp only [List.length_drop, List.length_cons]
            simp only [List.length_cons] at h2
            omega
          rw [ih g cb _ hlen hlen']

/-- The defining equation of `chunksOf`, fuel eliminated. -/
theorem chunksOf_eq (chunk_bytes : Nat) (p : List Nat) :
    chunksOf chunk_bytes p =
      if chunk_bytes = 0 ∨ p = [] then []
      else p.take chunk_bytes :: chunksOf chunk_bytes (p.drop chunk_bytes) := by
  unfold chunksOf
  match p with
  | [] => simp [chunksOfFuel]
  | a :: rest =>
    simp only [List.length_cons, chunksOfFuel, reduceCtorEq, or_false]
    by_cases hcb : chunk_bytes = 0
    · simp [hcb]
    · simp only [hcb, if_neg, not_false_iff, List.cons.injEq, true_and]
      apply chunksOfFuel_congr
      · simp only [List.length_drop, List.length_cons]
        omega
      · exact Nat.le_refl _

/-! ### Lemmas about the byte-level helpers -/

theorem beBytes_length (w n : Nat) : (beBytes w n).length = w := by
  simp [beBytes]

theorem beBytes_succ (w n : Nat) :
    beBytes (w + 1) n = beBytes w (n / 256) ++ [n % 256] := by
  unfold beBytes
  rw [List.range_succ, List.map_append]
  congr 1
  · apply List.map_congr_left
    intro i hi
    have hi' : i < w := List.mem_range.mp hi
    have hsub : w + 1 - 1 - i = (w - 1 - i) + 1 := by omega
    rw [hsub, pow_succ, Nat.div_div_eq_div_mul, Nat.mul_comm]
  · simp

theorem beVal_append_singleton (bs : List Nat) (b : Nat) :
    beVal (bs ++ [b]) = beVal bs * 256 + b := by
  simp [beVal, List.foldl_append]

theorem beVal_beBytes (w n : Nat) : beVal (beBytes w n) = n % 256 ^ w := by
  induction w generalizing n with
  | zero => simp [beBytes, beVal, Nat.mod_one]
  | succ w ih =>
    rw [beBytes_succ, beVal_append_singleton, ih]
    have h256 : (256 : Nat) ^ (w + 1) = 256 * 256 ^ w := by
      rw [pow_succ]; ring
    rw [h256, Nat.mod_mul]
    ring

theorem beBytes_inj {w i j : Nat} (hi : i < 256 ^ w) (hj : j < 256 ^ w)
    (h : beBytes w i = beBytes w j) : i = j := by
  have := congrArg beVal h
  rwa [beVal_beBytes, beVal_beBytes, Nat.mod_eq_of_lt hi,
    Nat.mod_eq_of_lt hj] at this

/-! ### Lemmas about `chunksOf` -/

theorem chunksOf_nil (chunk_bytes : Nat) : chunksOf chunk_bytes [] = [] := by
  rw [chunksOf_eq]; simp

theorem chunksOf_eq_nil_iff {chunk_bytes : Nat} (hcb : chunk_bytes ≠ 0)
    (p : List Nat) : chunksOf chunk_bytes p = [] ↔ p = [] := by
  rw [chunksOf_eq]
  by_cases hp : p = [] <;> simp [hp, hcb]

theorem chunksOf_flatten {chunk_bytes : Nat} (hcb : chunk_bytes ≠ 0) :
    ∀ (n : Nat) (p : List Nat), p.length ≤ n →
      (chunksOf chunk_bytes p).flatten = p := by
  intro n
  induction n with
  | zero =>
    intro p hp
    have : p = [] := List.eq_nil_of_length_eq_zero (Nat.le_zero.mp hp)
    subst this
    simp [chunksOf_nil]
  | succ n ih =>
    intro p hp
    by_cases hpnil : p = []
    · subst hpnil; simp [chunksOf_nil]
    · rw [chunksOf_eq]
      simp only [hcb, hpnil, or_self, if_neg, not_false_iff, false_or,
        reduceCtorEq]
      rw [List.flatten_cons, ih (p.drop chunk_bytes) ?_, List.take_append_drop]
      have hpos : 0 < p.length := List.length_pos.mpr hpnil
      simp only [List.length_drop]
      omega

theorem chunksOf_length {chunk_bytes : Nat} (hcb : chunk_bytes ≠ 0) :
    ∀ (n : Nat) (p : List Nat), p.length ≤ n →
      (chunksOf chunk_bytes p).length =
        (p.length + chunk_bytes - 1) / chunk_bytes := by
  intro n
  induction n with
  | zero =>
    intro p hp
    have : p = [] := List.eq_nil_of_length_eq_zero (Nat.le_zero.mp hp)
    subst this
    rw [chunksOf_nil]
    simp only [List.length_nil, Nat.zero_add]
    rw [Nat.div_eq_of_lt (by omega)]
  | succ n ih =>
    intro p hp
    by_cases hpnil : p = []
    · subst hpnil
      rw [chunksOf_nil]
      simp only [List.length_nil, Nat.zero_add]
      rw [Nat.div_eq_of_lt (by omega)]
    · rw [chunksOf_eq]
      simp only [hcb, hpnil, or_self, if_neg, not_false_iff, false_or,
        reduceCtorEq]
      have hpos : 0 < p.length := List.length_pos.mpr hpnil
      rw [List.length_cons, ih (p.drop chunk_bytes)
        (by simp only [List.length_drop]; omega)]
      simp only [List.length_drop]
      have hsplit : p.length + chunk_bytes - 1 =
          (p.length - 1) + chunk_bytes := by omega
      rw [hsplit, Nat.add_div_right _ (Nat.pos_of_ne_zero hcb)]
      by_cases hle : p.length ≤ chunk_bytes
      · have h1 : p.length - chunk_bytes = 0 := by omega
        rw [h1]
        simp only [Nat.zero_add]
        rw [Nat.div_eq_of_lt (by omega), Nat.div_eq_of_lt (by omega)]
      · have hsplit2 : p.length - chunk_bytes + chunk_bytes - 1 =
            (p.length - chunk_bytes - 1) + chunk_bytes := by omega
        rw [hsplit2, Nat.add_div_right _ (Nat.pos_of_ne_zero hcb)]
        have hsplit3 : p.length - 1 = (p.length - chunk_bytes - 1) +
            chunk_bytes := by omega
        rw [hsplit3, Nat.add_div_right _ (Nat.pos_of_ne_zero hcb)]

theorem chunksOf_mem_length {chunk_bytes : Nat} (hcb : chunk_bytes ≠ 0) :
    ∀ (n : Nat) (p : List Nat), p.length ≤ n →
      ∀ c ∈ chunksOf chunk_bytes p, 1 ≤ c.length ∧ c.length ≤ chunk_bytes := by
  intro n
  induction n with
  | zero =>
    intro p hp c hc
    have : p = [] := List.eq_nil_of_length_eq_zero (Nat.le_zero.mp hp)
    subst this
    rw [chunksOf_nil] at hc
    exact absurd hc (List.not_mem_nil c)
  | succ n ih =>
    intro p hp c hc
    by_cases hpnil : p = []
    · subst hpnil
      rw [chunksOf_nil] at hc
      exact absurd hc (List.not_mem_nil c)
    · rw [chunksOf_eq] at hc
      simp only [hcb, hpnil, or_self, if_neg, not_false_iff, false_or,
        reduceCtorEq, List.mem_cons] at hc
      have hpos : 0 < p.length := List.length_pos.mpr hpnil
      rcases hc with hc | hc
      · subst hc
        simp only [List.length_take]
        omega
      · exact ih (p.drop chunk_bytes)
          (by simp only [List.length_drop]; omega) c hc

theorem chunksOf_dropLast_length {chunk_bytes : Nat} (hcb : chunk_bytes ≠ 0) :
    ∀ (n : Nat) (p : List Nat), p.length ≤ n →
      ∀ c ∈ (chunksOf chunk_bytes p).dropLast, c.length = chunk_bytes := by
  intro n
  induction n with
  | zero =>
    intro p hp c hc
    have : p = [] := List.eq_nil_of_length_eq_zero (Nat.le_zero.mp hp)
    subst this
    rw [chunksOf_nil] at hc
    exact absurd hc (List.not_mem_nil c)
  | succ n ih =>
    intro p hp c hc
    by_cases hpnil : p = []
    · subst hpnil
      rw [chunksOf_nil] at hc
      exact absurd hc (List.not_mem_nil c)
    · rw [chunksOf_eq] at hc
      simp only [hcb, hpnil, or_self, if_neg, not_false_iff, false_or,
        reduceCtorEq] at hc
      have hpos : 0 < p.length := List.length_pos.mpr hpnil
      by_cases hdrop : p.drop chunk_bytes = []
      · rw [hdrop, chunksOf_nil] at hc
        simp [List.dropLast] at hc
      · have hrest : chunksOf chunk_bytes (p.drop chunk_bytes) ≠ [] := by
          rw [ne_eq, chunksOf_eq_nil_iff hcb]
          exact hdrop
        match hrw : chunksOf chunk_bytes (p.drop chunk_bytes) with
        | [] => exact absurd hrw hrest
        | b :: rest =>
          rw [hrw, List.dropLast_cons₂, List.mem_cons] at hc
          rcases hc with hc | hc
          · subst hc
            have hgt : chunk_bytes < p.length := by
              by_contra hle
              exact hdrop (List.drop_eq_nil_of_le (by omega))
            simp only [List.length_take]
            omega
          · have := ih (p.drop chunk_bytes)
              (by simp only [List.length_drop]; omega) c
            rw [hrw] at this
            exact this hc

theorem chunksOf_getLast {chunk_bytes : Nat} (hcb : chunk_bytes ≠ 0) :
    ∀ (n : Nat) (p : List Nat), p.length ≤ n → p ≠ [] →
      ∃ l, (chunksOf chunk_bytes p).getLast? = some l ∧
        l.length =
          p.length - ((chunksOf chunk_bytes p).length - 1) * chunk_bytes := by
  intro n
  induction n with
  | zero =>
    intro p hp hpnil
    exact absurd (List.eq_nil_of_length_eq_zero (Nat.le_zero.mp hp)) hpnil
  | succ n ih =>
    intro p hp hpnil
    rw [chunksOf_eq]
    simp only [hcb, hpnil, or_self, if_neg, not_false_iff, false_or,
      reduceCtorEq]
    have hpos : 0 < p.length := List.length_pos.mpr hpnil
    by_cases hdrop : p.drop chunk_bytes = []
    · rw [hdrop, chunksOf_nil]
      refine ⟨p.take chunk_bytes, rfl, ?_⟩
      have hle : p.length ≤ chunk_bytes := by
        by_contra hgt
        have : (p.drop chunk_bytes).length = 0 := by rw [hdrop]; rfl
        simp only [List.length_drop] at this
        omega
      simp only [List.length_take, List.length_cons, List.length_nil]
      omega
    · have hrest : chunksOf chunk_bytes (p.drop chunk_bytes) ≠ [] := by
        rw [ne_eq, chunksOf_eq_nil_iff hcb]
        exact hdrop
      obtain ⟨l, hl, hlen⟩ := ih (p.drop chunk_bytes)
        (by simp only [List.length_drop]; omega) hdrop
      match hrw : chunksOf chunk_bytes (p.drop chunk_bytes) with
      | [] => exact absurd hrw hrest
      | b :: rest =>
        rw [hrw] at hl hlen
        refine ⟨l, ?_, ?_⟩
        · rw [List.getLast?_cons_cons]
          exact hl
        · have hgt : chunk_bytes < p.length := by
            by_contra hle
            exact hdrop (List.drop_eq_nil_of_le (by omega))
          simp only [List.length_drop] at hlen
          simp only [List.length_cons]
          match rest with
          | [] =>
            simp only [List.length_cons, List.length_nil] at hlen ⊢
            omega
          | r :: rest' =>
            simp only [List.length_cons, List.length_nil] at hlen ⊢
            generalize hA : rest'.length = A at hlen ⊢
            have h1 : A + 1 + 1 + 1 - 1 = A + 2 := by omega
            have h2 : A + 1 + 1 - 1 = A + 1 := by omega
            rw [h1]
            rw [h2] at hlen
            have e1 : (A + 2) * chunk_bytes =
                (A + 1) * chunk_bytes + chunk_bytes := by ring
            omega

/-! ### The encryption loop in closed form -/

theorem foldl_encryptStep (enc : List Nat → List Nat → List Nat → List Nat)
    (chunk_bytes : Nat) ( nonce_prefix : List Nat) :
    ∀ (cs : List (List Nat)) (st : EncState),
      cs.foldl (encryptStep enc chunk_bytes nonce_prefix) st =
        { out := st.out ++ recsFrom enc chunk_bytes nonce_prefix st.chunk_index cs
          hashed :=
            st.hashed ++ recsFrom enc chunk_bytes nonce_prefix st.chunk_index cs
          plaintext_size := st.plaintext_size + (cs.map List.length).sum
          chunk_index := st.chunk_index + cs.length } := by
  intro cs
  induction cs with
  | nil => intro st; simp [recsFrom]
  | cons c cs ih =>
    intro st
    rw [List.foldl_cons, ih]
    simp only [encryptStep, recsFrom, record_bytes, List.map_cons,
      List.sum_cons, List.length_cons, EncState.mk.injEq]
    refine ⟨?_, ?_, by omega, by omega⟩ <;> simp [List.append_assoc]

theorem recsFrom_length (enc : List Nat → List Nat → List Nat → List Nat)
    (chunk_bytes : Nat) ( nonce_prefix : List Nat)
    (henc : ∀ n a p, (enc n a p).length = p.length + 16) :
    ∀ (cs : List (List Nat)) (i : Nat),
      (recsFrom enc chunk_bytes nonce_prefix i cs).length =
        20 * cs.length + (cs.map List.length).sum := by
  intro cs
  induction cs with
  | nil => intro i; simp [recsFrom]
  | cons c cs ih =>
    intro i
    simp only [recsFrom, record_bytes, List.length_append, beBytes_length,
      henc, ih, List.map_cons, List.sum_cons, List.length_cons]
    omega

/-- The happy path of `encrypt_file` in closed form: header followed by the
records of the chunk sequence, the hasher fed exactly the file bytes, and
the returned size equal to the plaintext length. -/
theorem encrypt_file_eq (enc : List Nat → List Nat → List Nat → List Nat)
    {key nonce_prefix : List Nat} (plaintext : List Nat) {chunk_bytes : Nat}
    (hkey : key.length = 32) ( hprefix : nonce_prefix.length = 4)
    (hcb₁ : 1024 ≤ chunk_bytes) (hcb₂ : chunk_bytes ≤ 67108864) :
    encrypt_file enc key nonce_prefix plaintext chunk_bytes =
      .ok (headerBytes chunk_bytes nonce_prefix
            ++ recsFrom enc chunk_bytes nonce_prefix 0
              (chunksOf chunk_bytes plaintext),
          headerBytes chunk_bytes nonce_prefix
            ++ recsFrom enc chunk_bytes nonce_prefix 0
              (chunksOf chunk_bytes plaintext),
          plaintext.length) := by
  unfold encrypt_file
  rw [if_neg (by omega), if_neg (by push_neg; omega)]
  unfold build_header
  rw [if_neg (by rw [ hprefix]; simp [NONCE_PREFIX_SIZE]),
    if_neg (by push_neg; omega)]
  simp only [foldl_encryptStep]
  have hsum : ((chunksOf chunk_bytes plaintext).map List.length).sum =
      plaintext.length := by
    rw [← List.length_flatten,
      chunksOf_flatten (by omega) plaintext.length plaintext (Nat.le_refl _)]
  simp [hsum]

theorem headerBytes_length { nonce_prefix : List Nat} (chunk_bytes : Nat)
    ( hprefix : nonce_prefix.length = 4) :
    (headerBytes chunk_bytes nonce_prefix).length = 32 := by
  simp [headerBytes, beBytes_length, MAGIC, hprefix]

/-- The take/drop slices of the header at the offsets of §3 of the spec. -/
theorem headerBytes_slices (chunk_bytes : Nat) { nonce_prefix : List Nat}
    ( hprefix : nonce_prefix.length = 4) :
    (headerBytes chunk_bytes nonce_prefix).take 8 = MAGIC ∧
    ((headerBytes chunk_bytes nonce_prefix).drop 8).take 2 =
      beBytes 2 VERSION ∧
    ((headerBytes chunk_bytes nonce_prefix).drop 10).take 1 =
      beBytes 1 ALGO_AES_GCM_CHUNKED ∧
    ((headerBytes chunk_bytes nonce_prefix).drop 11).take 4 =
      beBytes 4 chunk_bytes ∧
    ((headerBytes chunk_bytes nonce_prefix).drop 15).take 4 = nonce_prefix ∧
    (headerBytes chunk_bytes nonce_prefix).drop 19 = List.replicate 13 0 := by
  have e1 : headerBytes chunk_bytes nonce_prefix =
      MAGIC ++ (beBytes 2 VERSION ++ (beBytes 1 ALGO_AES_GCM_CHUNKED ++
        (beBytes 4 chunk_bytes ++ ( nonce_prefix ++ List.replicate 13 0)))) := by
    simp [headerBytes, List.append_assoc]
  have e2 : headerBytes chunk_bytes nonce_prefix =
      (MAGIC ++ beBytes 2 VERSION) ++ (beBytes 1 ALGO_AES_GCM_CHUNKED ++
        (beBytes 4 chunk_bytes ++ ( nonce_prefix ++ List.replicate 13 0))) := by
    simp [headerBytes, List.append_assoc]
  have e3 : headerBytes chunk_bytes nonce_prefix =
      (MAGIC ++ beBytes 2 VERSION ++ beBytes 1 ALGO_AES_GCM_CHUNKED) ++
        (beBytes 4 chunk_bytes ++ ( nonce_prefix ++ List.replicate 13 0)) := by
    simp [headerBytes, List.append_assoc]
  have e4 : headerBytes chunk_bytes nonce_prefix =
      (MAGIC ++ beBytes 2 VERSION ++ beBytes 1 ALGO_AES_GCM_CHUNKED ++
        beBytes 4 chunk_bytes) ++ ( nonce_prefix ++ List.replicate 13 0) := by
    simp [headerBytes, List.append_assoc]
  have e5 : headerBytes chunk_bytes nonce_prefix =
      (MAGIC ++ beBytes 2 VERSION ++ beBytes 1 ALGO_AES_GCM_CHUNKED ++
        beBytes 4 chunk_bytes ++ nonce_prefix) ++ List.replicate 13 0 := by
    simp [headerBytes, List.append_assoc]
  refine ⟨?_, ?_, ?_, ?_, ?_, ?_⟩
  · rw [e1, List.take_left' (by decide)]
  · rw [e1, List.drop_left' (by decide),
      List.take_left' (beBytes_length 2 VERSION)]
  · rw [e2, List.drop_left' (by simp [MAGIC, beBytes_length]),
      List.take_left' (beBytes_length 1 ALGO_AES_GCM_CHUNKED)]
  · rw [e3, List.drop_left' (by simp [MAGIC, beBytes_length]),
      List.take_left' (beBytes_length 4 chunk_bytes)]
  · rw [e4, List.drop_left' (by simp [MAGIC, beBytes_length]),
      List.take_left' hprefix]
  · rw [e5, List.drop_left' (by simp [MAGIC, beBytes_length, hprefix])]

/-! ## Claim theorems -/

/-- C1: for every input file and every chunk_bytes in [1024, 67108864],
`encrypt_file` writes the 32-byte header followed by exactly
N = ⌈plaintext_size / chunk_bytes⌉ records; every non-final record has
`pt_len = chunk_bytes` and the final record has
`pt_len = plaintext_size - (N-1)·chunk_bytes`, so `1 ≤ pt_len ≤
chunk_bytes` and no zero-length record is emitted; for empty plaintext,
N = 0 and the output is exactly the header; each record is the 4-byte
big-endian `pt_len`, `pt_len` ciphertext bytes and the 16-byte tag, so the
file size is `32 + plaintext_size + 20·N`. -/
theorem c1_encrypt_file_record_framing
    (enc : List Nat → List Nat → List Nat → List Nat)
    (key nonce_prefix plaintext : List Nat) (chunk_bytes : Nat)
    (henc : ∀ n a p, (enc n a p).length = p.length + 16)
    (hkey : key.length = 32) ( hprefix : nonce_prefix.length = 4)
    (hcb₁ : 1024 ≤ chunk_bytes) (hcb₂ : chunk_bytes ≤ 67108864) :
    encrypt_file enc key nonce_prefix plaintext chunk_bytes =
      .ok (headerBytes chunk_bytes nonce_prefix
            ++ recsFrom enc chunk_bytes nonce_prefix 0
              (chunksOf chunk_bytes plaintext),
          headerBytes chunk_bytes nonce_prefix
            ++ recsFrom enc chunk_bytes nonce_prefix 0
              (chunksOf chunk_bytes plaintext),
          plaintext.length) ∧
    (headerBytes chunk_bytes nonce_prefix).length = 32 ∧
    (chunksOf chunk_bytes plaintext).length =
      (plaintext.length + chunk_bytes - 1) / chunk_bytes ∧
    (∀ c ∈ (chunksOf chunk_bytes plaintext).dropLast,
      c.length = chunk_bytes) ∧
    (plaintext ≠ [] →
      ∃ l, (chunksOf chunk_bytes plaintext).getLast? = some l ∧
        l.length = plaintext.length -
          ((chunksOf chunk_bytes plaintext).length - 1) * chunk_bytes) ∧
    (∀ c ∈ chunksOf chunk_bytes plaintext,
      1 ≤ c.length ∧ c.length ≤ chunk_bytes) ∧
    (plaintext = [] →
      headerBytes chunk_bytes nonce_prefix
        ++ recsFrom enc chunk_bytes nonce_prefix 0
          (chunksOf chunk_bytes plaintext) =
        headerBytes chunk_bytes nonce_prefix) ∧
    (∀ i c, (record_bytes enc chunk_bytes nonce_prefix i c).length =
      4 + c.length + 16) ∧
    (headerBytes chunk_bytes nonce_prefix
      ++ recsFrom enc chunk_bytes nonce_prefix 0
        (chunksOf chunk_bytes plaintext)).length =
      32 + plaintext.length + 20 * (chunksOf chunk_bytes plaintext).length := by
  have hcb0 : chunk_bytes ≠ 0 := by omega
  have hdr : (headerBytes chunk_bytes nonce_prefix).length = 32 := by
    simp [headerBytes, beBytes_length, MAGIC, hprefix]
  have hsum : ((chunksOf chunk_bytes plaintext).map List.length).sum =
      plaintext.length := by
    rw [← List.length_flatten,
      chunksOf_flatten hcb0 plaintext.length plaintext (Nat.le_refl _)]
  refine ⟨encrypt_file_eq enc plaintext hkey hprefix hcb₁ hcb₂, hdr,
    chunksOf_length hcb0 plaintext.length plaintext (Nat.le_refl _),
    chunksOf_dropLast_length hcb0 plaintext.length plaintext (Nat.le_refl _),
    fun hne => chunksOf_getLast hcb0 plaintext.length plaintext
      (Nat.le_refl _) hne,
    chunksOf_mem_length hcb0 plaintext.length plaintext (Nat.le_refl _),
    ?_, ?_, ?_⟩
  · intro hnil
    subst hnil
    rw [chunksOf_nil]
    simp [recsFrom]
  · intro i c
    simp only [record_bytes, List.length_append, beBytes_length, henc]
    omega
  · rw [List.length_append, hdr,
      recsFrom_length enc chunk_bytes nonce_prefix henc]
    omega

/-- Witness for C1 at a concrete input. -/
theorem c1_encrypt_file_record_framing_witness :
    encrypt_file encW (List.replicate 32 0) [0, 0, 0, 1] [1, 2, 3] 1024 =
      .ok (headerBytes 1024 [0, 0, 0, 1]
            ++ recsFrom encW 1024 [0, 0, 0, 1] 0 (chunksOf 1024 [1, 2, 3]),
          headerBytes 1024 [0, 0, 0, 1]
            ++ recsFrom encW 1024 [0, 0, 0, 1] 0 (chunksOf 1024 [1, 2, 3]),
          [1, 2, 3].length) ∧
    (headerBytes 1024 [0, 0, 0, 1]).length = 32 ∧
    (chunksOf 1024 [1, 2, 3]).length = ([1, 2, 3].length + 1024 - 1) / 1024 ∧
    (∀ c ∈ (chunksOf 1024 [1, 2, 3]).dropLast, c.length = 1024) ∧
    ([1, 2, 3] ≠ ([] : List Nat) →
      ∃ l, (chunksOf 1024 [1, 2, 3]).getLast? = some l ∧
        l.length = [1, 2, 3].length -
          ((chunksOf 1024 [1, 2, 3]).length - 1) * 1024) ∧
    (∀ c ∈ chunksOf 1024 [1, 2, 3], 1 ≤ c.length ∧ c.length ≤ 1024) ∧
    ([1, 2, 3] = ([] : List Nat) →
      headerBytes 1024 [0, 0, 0, 1]
        ++ recsFrom encW 1024 [0, 0, 0, 1] 0 (chunksOf 1024 [1, 2, 3]) =
        headerBytes 1024 [0, 0, 0, 1]) ∧
    (∀ i c, (record_bytes encW 1024 [0, 0, 0, 1] i c).length =
      4 + c.length + 16) ∧
    (headerBytes 1024 [0, 0, 0, 1]
      ++ recsFrom encW 1024 [0, 0, 0, 1] 0 (chunksOf 1024 [1, 2, 3])).length =
      32 + [1, 2, 3].length + 20 * (chunksOf 1024 [1, 2, 3]).length :=
  c1_encrypt_file_record_framing encW (List.replicate 32 0) [0, 0, 0, 1]
    [1, 2, 3] 1024 (fun n a p => by simp [encW]) (by decide) (by decide)
    (by decide) (by decide)

/-- C2: `build_header` with a 4-byte nonce_prefix and in-range chunk_bytes
returns exactly 32 bytes, laid out big-endian as ASCII "TBENC001" at
offset 0, the 16-bit version 1 at offset 8, the 8-bit algorithm 1 at
offset 10, the 32-bit chunk_bytes at offset 11, the nonce_prefix at offset
15 and 13 zero reserved bytes at offset 19; `encrypt_file` emits exactly
these bytes as the first 32 bytes of its output. -/
theorem c2_build_header_layout (chunk_bytes : Nat) ( nonce_prefix : List Nat)
    ( hprefix : nonce_prefix.length = 4)
    (hcb₁ : 1024 ≤ chunk_bytes) (hcb₂ : chunk_bytes ≤ 67108864) :
    build_header chunk_bytes nonce_prefix =
      .ok (headerBytes chunk_bytes nonce_prefix) ∧
    (headerBytes chunk_bytes nonce_prefix).length = 32 ∧
    (headerBytes chunk_bytes nonce_prefix).take 8 = MAGIC ∧
    ((headerBytes chunk_bytes nonce_prefix).drop 8).take 2 =
      beBytes 2 VERSION ∧
    beVal (((headerBytes chunk_bytes nonce_prefix).drop 8).take 2) = 1 ∧
    ((headerBytes chunk_bytes nonce_prefix).drop 10).take 1 =
      beBytes 1 ALGO_AES_GCM_CHUNKED ∧
    beVal (((headerBytes chunk_bytes nonce_prefix).drop 10).take 1) = 1 ∧
    ((headerBytes chunk_bytes nonce_prefix).drop 11).take 4 =
      beBytes 4 chunk_bytes ∧
    beVal (((headerBytes chunk_bytes nonce_prefix).drop 11).take 4) =
      chunk_bytes ∧
    ((headerBytes chunk_bytes nonce_prefix).drop 15).take 4 = nonce_prefix ∧
    (headerBytes chunk_bytes nonce_prefix).drop 19 = List.replicate 13 0 ∧
    (∀ enc key plaintext out hashed n, key.length = 32 →
      encrypt_file enc key nonce_prefix plaintext chunk_bytes =
        .ok (out, hashed, n) →
      out.take 32 = headerBytes chunk_bytes nonce_prefix) := by
  have hlen : (headerBytes chunk_bytes nonce_prefix).length = 32 :=
    headerBytes_length chunk_bytes hprefix
  obtain ⟨s1, s2, s3, s4, s5, s6⟩ := headerBytes_slices chunk_bytes hprefix
  refine ⟨?_, hlen, s1, s2, ?_, s3, ?_, s4, ?_, s5, s6, ?_⟩
  · unfold build_header
    rw [if_neg (by rw [ hprefix]; simp [NONCE_PREFIX_SIZE]),
      if_neg (by push_neg; omega)]
  · rw [s2]; decide
  · rw [s3]; decide
  · rw [s4, beVal_beBytes]
    rw [show (256 : Nat) ^ 4 = 4294967296 from by norm_num]
    omega
  · intro enc key plaintext out hashed n hkey henc
    rw [encrypt_file_eq enc plaintext hkey hprefix hcb₁ hcb₂] at henc
    have hout : out = headerBytes chunk_bytes nonce_prefix
        ++ recsFrom enc chunk_bytes nonce_prefix 0
          (chunksOf chunk_bytes plaintext) := by
      simp only [Except.ok.injEq, Prod.mk.injEq] at henc
      exact henc.1.symm
    rw [hout, ← hlen, List.take_left]

/-- Witness for C2 at a concrete input. -/
theorem c2_build_header_layout_witness :
    build_header 4194304 [1, 2, 3, 4] = .ok (headerBytes 4194304 [1, 2, 3, 4]) ∧
    (headerBytes 4194304 [1, 2, 3, 4]).length = 32 ∧
    (headerBytes 4194304 [1, 2, 3, 4]).take 8 = MAGIC ∧
    ((headerBytes 4194304 [1, 2, 3, 4]).drop 8).take 2 = beBytes 2 VERSION ∧
    beVal (((headerBytes 4194304 [1, 2, 3, 4]).drop 8).take 2) = 1 ∧
    ((headerBytes 4194304 [1, 2, 3, 4]).drop 10).take 1 =
      beBytes 1 ALGO_AES_GCM_CHUNKED ∧
    beVal (((headerBytes 4194304 [1, 2, 3, 4]).drop 10).take 1) = 1 ∧
    ((headerBytes 4194304 [1, 2, 3, 4]).drop 11).take 4 = beBytes 4 4194304 ∧
    beVal (((headerBytes 4194304 [1, 2, 3, 4]).drop 11).take 4) = 4194304 ∧
    ((headerBytes 4194304 [1, 2, 3, 4]).drop 15).take 4 = [1, 2, 3, 4] ∧
    (headerBytes 4194304 [1, 2, 3, 4]).drop 19 = List.replicate 13 0 ∧
    (∀ enc key plaintext out hashed n, key.length = 32 →
      encrypt_file enc key [1, 2, 3, 4] plaintext 4194304 =
        .ok (out, hashed, n) →
      out.take 32 = headerBytes 4194304 [1, 2, 3, 4]) :=
  c2_build_header_layout 4194304 [1, 2, 3, 4] (by decide) (by decide)
    (by decide)

/-- C3: `derive_nonce` is pure and returns exactly the 4 prefix bytes
followed by the 64-bit big-endian chunk index (12 bytes total), hence is
injective on indices below 2^64 and the per-record nonces within one
ciphertext are pairwise distinct; `build_aad` returns exactly the 31-byte
big-endian concatenation `magic‖version‖algorithm‖chunk_bytes‖nonce_prefix‖
chunk_index‖pt_len` with widths 8+2+1+4+4+8+4. -/
theorem c3_nonce_and_aad ( nonce_prefix : List Nat)
    ( hprefix : nonce_prefix.length = 4) :
    (∀ chunk_index, (derive_nonce nonce_prefix chunk_index).length = 12) ∧
    (∀ chunk_index, (derive_nonce nonce_prefix chunk_index).take 4 =
      nonce_prefix) ∧
    (∀ chunk_index, (derive_nonce nonce_prefix chunk_index).drop 4 =
      beBytes 8 chunk_index) ∧
    (∀ chunk_index, chunk_index < 2 ^ 64 →
      beVal ((derive_nonce nonce_prefix chunk_index).drop 4) = chunk_index) ∧
    (∀ i j, i < 2 ^ 64 → j < 2 ^ 64 →
      derive_nonce nonce_prefix i = derive_nonce nonce_prefix j → i = j) ∧
    (∀ N, N ≤ 2 ^ 64 →
      ((List.range N).map (derive_nonce nonce_prefix)).Pairwise (· ≠ ·)) ∧
    (∀ chunk_bytes chunk_index pt_len,
      (build_aad MAGIC VERSION ALGO_AES_GCM_CHUNKED chunk_bytes nonce_prefix
        chunk_index pt_len).length = 31) ∧
    (∀ chunk_bytes chunk_index pt_len,
      chunk_bytes < 2 ^ 32 → chunk_index < 2 ^ 64 → pt_len < 2 ^ 32 →
      (build_aad MAGIC VERSION ALGO_AES_GCM_CHUNKED chunk_bytes nonce_prefix
        chunk_index pt_len).take 8 = MAGIC ∧
      beVal (((build_aad MAGIC VERSION ALGO_AES_GCM_CHUNKED chunk_bytes
        nonce_prefix chunk_index pt_len).drop 8).take 2) = VERSION ∧
      beVal (((build_aad MAGIC VERSION ALGO_AES_GCM_CHUNKED chunk_bytes
        nonce_prefix chunk_index pt_len).drop 10).take 1) =
        ALGO_AES_GCM_CHUNKED ∧
      beVal (((build_aad MAGIC VERSION ALGO_AES_GCM_CHUNKED chunk_bytes
        nonce_prefix chunk_index pt_len).drop 11).take 4) = chunk_bytes ∧
      ((build_aad MAGIC VERSION ALGO_AES_GCM_CHUNKED chunk_bytes nonce_prefix
        chunk_index pt_len).drop 15).take 4 = nonce_prefix ∧
      beVal (((build_aad MAGIC VERSION ALGO_AES_GCM_CHUNKED chunk_bytes
        nonce_prefix chunk_index pt_len).drop 19).take 8) = chunk_index ∧
      beVal ((build_aad MAGIC VERSION ALGO_AES_GCM_CHUNKED chunk_bytes
        nonce_prefix chunk_index pt_len).drop 27) = pt_len) := by
  have h2_64 : (256 : Nat) ^ 8 = 2 ^ 64 := by norm_num
  have h2_32 : (256 : Nat) ^ 4 = 2 ^ 32 := by norm_num
  refine ⟨?_, ?_, ?_, ?_, ?_, ?_, ?_, ?_⟩
  · intro i
    simp [derive_nonce, beBytes_length, hprefix]
  · intro i
    unfold derive_nonce
    rw [ List.take_left' hprefix]
  · intro i
    unfold derive_nonce
    rw [ List.drop_left' hprefix]
  · intro i hi
    unfold derive_nonce
    rw [ List.drop_left' hprefix, beVal_beBytes, h2_64, Nat.mod_eq_of_lt hi]
  · intro i j hi hj h
    unfold derive_nonce at h
    have h8 : beBytes 8 i = beBytes 8 j :=
      List.append_cancel_left h
    exact beBytes_inj (by omega) (by omega) h8
  · intro N hN
    rw [List.pairwise_map]
    apply List.Pairwise.imp_of_mem ?_ (List.pairwise_lt_range N)
    intro a b ha hb hlt hEq
    have ha' : a < 2 ^ 64 := by
      have := List.mem_range.mp ha
      omega
    have hb' : b < 2 ^ 64 := by
      have := List.mem_range.mp hb
      omega
    have h8 : beBytes 8 a = beBytes 8 b :=
      List.append_cancel_left hEq
    exact absurd (beBytes_inj (by omega) (by omega) h8) (by omega)
  · intro cb i len
    simp [build_aad, beBytes_length, MAGIC, hprefix]
  · intro cb i len hcb hi hlen
    have e1 : build_aad MAGIC VERSION ALGO_AES_GCM_CHUNKED cb nonce_prefix
        i len = MAGIC ++ (beBytes 2 VERSION ++ (beBytes 1 ALGO_AES_GCM_CHUNKED
          ++ (beBytes 4 cb ++ ( nonce_prefix ++ (beBytes 8 i ++
            beBytes 4 len))))) := by
      simp [build_aad, List.append_assoc]
    have e2 : build_aad MAGIC VERSION ALGO_AES_GCM_CHUNKED cb nonce_prefix
        i len = (MAGIC ++ beBytes 2 VERSION) ++
          (beBytes 1 ALGO_AES_GCM_CHUNKED ++ (beBytes 4 cb ++
            ( nonce_prefix ++ (beBytes 8 i ++ beBytes 4 len)))) := by
      simp [build_aad, List.append_assoc]
    have e3 : build_aad MAGIC VERSION ALGO_AES_GCM_CHUNKED cb nonce_prefix
        i len = (MAGIC ++ beBytes 2 VERSION ++
          beBytes 1 ALGO_AES_GCM_CHUNKED) ++ (beBytes 4 cb ++
            ( nonce_prefix ++ (beBytes 8 i ++ beBytes 4 len))) := by
      simp [build_aad, List.append_assoc]
    have e4 : build_aad MAGIC VERSION ALGO_AES_GCM_CHUNKED cb nonce_prefix
        i len = (MAGIC ++ beBytes 2 VERSION ++ beBytes 1 ALGO_AES_GCM_CHUNKED
          ++ beBytes 4 cb) ++ ( nonce_prefix ++ (beBytes 8 i ++
            beBytes 4 len)) := by
      simp [build_aad, List.append_assoc]
    have e5 : build_aad MAGIC VERSION ALGO_AES_GCM_CHUNKED cb nonce_prefix
        i len = (MAGIC ++ beBytes 2 VERSION ++ beBytes 1 ALGO_AES_GCM_CHUNKED
          ++ beBytes 4 cb ++ nonce_prefix) ++ (beBytes 8 i ++
            beBytes 4 len) := by
      simp [build_aad, List.append_assoc]
    have e6 : build_aad MAGIC VERSION ALGO_AES_GCM_CHUNKED cb nonce_prefix
        i len = (MAGIC ++ beBytes 2 VERSION ++ beBytes 1 ALGO_AES_GCM_CHUNKED
          ++ beBytes 4 cb ++ nonce_prefix ++ beBytes 8 i) ++
            beBytes 4 len := by
      simp [build_aad, List.append_assoc]
    refine ⟨?_, ?_, ?_, ?_, ?_, ?_, ?_⟩
    · rw [e1, List.take_left' (by decide)]
    · rw [e1, List.drop_left' (by decide),
        List.take_left' (beBytes_length 2 VERSION)]
      decide
    · rw [e2, List.drop_left' (by simp [MAGIC, beBytes_length]),
        List.take_left' (beBytes_length 1 ALGO_AES_GCM_CHUNKED)]
      decide
    · rw [e3, List.drop_left' (by simp [MAGIC, beBytes_length]),
        List.take_left' (beBytes_length 4 cb), beVal_beBytes, h2_32,
        Nat.mod_eq_of_lt hcb]
    · rw [e4, List.drop_left' (by simp [MAGIC, beBytes_length]),
        List.take_left' hprefix]
    · rw [e5, List.drop_left' (by simp [MAGIC, beBytes_length, hprefix]),
        List.take_left' (beBytes_length 8 i), beVal_beBytes, h2_64,
        Nat.mod_eq_of_lt hi]
    · rw [e6, List.drop_left'
        (by simp [MAGIC, beBytes_length, hprefix]), beVal_beBytes, h2_32,
        Nat.mod_eq_of_lt hlen]

/-- Witness for C3 at a concrete nonce prefix. -/
theorem c3_nonce_and_aad_witness :
    (∀ chunk_index, (derive_nonce [9, 8, 7, 6] chunk_index).length = 12) ∧
    (∀ chunk_index, (derive_nonce [9, 8, 7, 6] chunk_index).take 4 =
      [9, 8, 7, 6]) ∧
    (∀ chunk_index, (derive_nonce [9, 8, 7, 6] chunk_index).drop 4 =
      beBytes 8 chunk_index) ∧
    (∀ chunk_index, chunk_index < 2 ^ 64 →
      beVal ((derive_nonce [9, 8, 7, 6] chunk_index).drop 4) = chunk_index) ∧
    (∀ i j, i < 2 ^ 64 → j < 2 ^ 64 →
      derive_nonce [9, 8, 7, 6] i = derive_nonce [9, 8, 7, 6] j → i = j) ∧
    (∀ N, N ≤ 2 ^ 64 →
      ((List.range N).map (derive_nonce [9, 8, 7, 6])).Pairwise (· ≠ ·)) ∧
    (∀ chunk_bytes chunk_index pt_len,
      (build_aad MAGIC VERSION ALGO_AES_GCM_CHUNKED chunk_bytes [9, 8, 7, 6]
        chunk_index pt_len).length = 31) ∧
    (∀ chunk_bytes chunk_index pt_len,
      chunk_bytes < 2 ^ 32 → chunk_index < 2 ^ 64 → pt_len < 2 ^ 32 →
      (build_aad MAGIC VERSION ALGO_AES_GCM_CHUNKED chunk_bytes [9, 8, 7, 6]
        chunk_index pt_len).take 8 = MAGIC ∧
      beVal (((build_aad MAGIC VERSION ALGO_AES_GCM_CHUNKED chunk_bytes
        [9, 8, 7, 6] chunk_index pt_len).drop 8).take 2) = VERSION ∧
      beVal (((build_aad MAGIC VERSION ALGO_AES_GCM_CHUNKED chunk_bytes
        [9, 8, 7, 6] chunk_index pt_len).drop 10).take 1) =
        ALGO_AES_GCM_CHUNKED ∧
      beVal (((build_aad MAGIC VERSION ALGO_AES_GCM_CHUNKED chunk_bytes
        [9, 8, 7, 6] chunk_index pt_len).drop 11).take 4) = chunk_bytes ∧
      ((build_aad MAGIC VERSION ALGO_AES_GCM_CHUNKED chunk_bytes [9, 8, 7, 6]
        chunk_index pt_len).drop 15).take 4 = [9, 8, 7, 6] ∧
      beVal (((build_aad MAGIC VERSION ALGO_AES_GCM_CHUNKED chunk_bytes
        [9, 8, 7, 6] chunk_index pt_len).drop 19).take 8) = chunk_index ∧
      beVal ((build_aad MAGIC VERSION ALGO_AES_GCM_CHUNKED chunk_bytes
        [9, 8, 7, 6] chunk_index pt_len).drop 27) = pt_len) :=
  c3_nonce_and_aad [9, 8, 7, 6] (by decide)

/-- C4: `encrypt_file` returns the digest of exactly the bytes it wrote to
the ciphertext file (header included) together with the count of plaintext
bytes read, and `encrypt_and_generate_manifest` stores exactly that digest
and count in the manifest, so the hash of the whole ciphertext file equals
the manifest's `sha256_ciphertext` (for every hash function, in particular
SHA-256). -/
theorem c4_hash_and_manifest_consistency
    (enc : List Nat → List Nat → List Nat → List Nat)
    (hashFn : List Nat → String)
    (key nonce_prefix plaintext : List Nat) (chunk_bytes : Nat)
    (asset_id output_filename : String)
    (hkey : key.length = 32) ( hprefix : nonce_prefix.length = 4)
    (hcb₁ : 1024 ≤ chunk_bytes) (hcb₂ : chunk_bytes ≤ 67108864) :
    (∀ out hashed n,
      encrypt_file enc key nonce_prefix plaintext chunk_bytes =
        .ok (out, hashed, n) →
      hashed = out ∧ n = plaintext.length ∧ hashFn hashed = hashFn out) ∧
    (∀ out m,
      encrypt_and_generate_manifest enc hashFn key nonce_prefix plaintext
        asset_id chunk_bytes output_filename = .ok (out, m) →
      m.sha256_ciphertext = hashFn out ∧
      m.plaintext_bytes = plaintext.length) := by
  have hfile := encrypt_file_eq enc plaintext hkey hprefix hcb₁ hcb₂
  constructor
  · intro out hashed n h
    rw [hfile] at h
    simp only [Except.ok.injEq, Prod.mk.injEq] at h
    obtain ⟨h1, h2, h3⟩ := h
    subst h1 h2 h3
    exact ⟨rfl, rfl, rfl⟩
  · intro out m h
    unfold encrypt_and_generate_manifest at h
    rw [hfile] at h
    simp only [Except.ok.injEq, Prod.mk.injEq] at h
    obtain ⟨h1, h2⟩ := h
    subst h1 h2
    exact ⟨rfl, rfl⟩

/-- Witness for C4 at a concrete input. -/
theorem c4_hash_and_manifest_consistency_witness :
    (∀ out hashed n,
      encrypt_file encW (List.replicate 32 0) [0, 0, 0, 2] [7, 7] 1024 =
        .ok (out, hashed, n) →
      hashed = out ∧ n = [7, 7].length ∧ hashW hashed = hashW out) ∧
    (∀ out m,
      encrypt_and_generate_manifest encW hashW (List.replicate 32 0)
        [0, 0, 0, 2] [7, 7] "asset-1" 1024 "model.tbenc" = .ok (out, m) →
      m.sha256_ciphertext = hashW out ∧ m.plaintext_bytes = [7, 7].length) :=
  c4_hash_and_manifest_consistency encW hashW (List.replicate 32 0)
    [0, 0, 0, 2] [7, 7] 1024 "asset-1" "model.tbenc" (by decide) (by decide)
    (by decide) (by decide)

theorem parse_header_headerBytes (chunk_bytes : Nat)
    { nonce_prefix : List Nat} (rest : List Nat)
    ( hprefix : nonce_prefix.length = 4)
    (hcb₁ : 1024 ≤ chunk_bytes) (hcb₂ : chunk_bytes ≤ 67108864) :
    parse_header ((headerBytes chunk_bytes nonce_prefix ++ rest).take
      HEADER_SIZE) = .ok (chunk_bytes, nonce_prefix) := by
  have hlen : (headerBytes chunk_bytes nonce_prefix).length = 32 :=
    headerBytes_length chunk_bytes hprefix
  have htake : (headerBytes chunk_bytes nonce_prefix ++ rest).take
      HEADER_SIZE = headerBytes chunk_bytes nonce_prefix :=
    List.take_left' (by rw [hlen]; rfl)
  rw [htake]
  obtain ⟨s1, s2, s3, s4, s5, s6⟩ := headerBytes_slices chunk_bytes hprefix
  have hdec4 : beVal (((headerBytes chunk_bytes nonce_prefix).drop 11).take 4)
      = chunk_bytes := by
    rw [s4, beVal_beBytes,
      show (256 : Nat) ^ 4 = 4294967296 from by norm_num]
    omega
  unfold parse_header
  rw [if_neg (by rw [hlen]; decide), if_neg (by rw [s1]; simp),
    if_neg (by rw [s2]; decide), if_neg (by rw [s3]; decide),
    if_neg (by rw [hdec4]; push_neg; omega),
    if_neg (by rw [s6]; simp), hdec4, s5]

theorem decryptRecordsFuel_recsFrom
    (enc : List Nat → List Nat → List Nat → List Nat)
    (dec : List Nat → List Nat → List Nat → Option (List Nat))
    (chunk_bytes : Nat) ( nonce_prefix : List Nat)
    (henc : ∀ n a p, (enc n a p).length = p.length + 16)
    (hdec : ∀ n a p, dec n a (enc n a p) = some p)
    (hcb : chunk_bytes < 2 ^ 32) :
    ∀ (cs : List (List Nat)) (i fuel : Nat),
      (recsFrom enc chunk_bytes nonce_prefix i cs).length ≤ fuel →
      (∀ c ∈ cs, 1 ≤ c.length ∧ c.length ≤ chunk_bytes) →
      decryptRecordsFuel dec chunk_bytes nonce_prefix fuel i
        (recsFrom enc chunk_bytes nonce_prefix i cs) = .ok cs.flatten := by
  intro cs
  induction cs with
  | nil =>
    intro i fuel hf hmem
    cases fuel <;> simp [recsFrom, decryptRecordsFuel]
  | cons c cs ih =>
    intro i fuel hf hmem
    have hc := hmem c (List.mem_cons_self c cs)
    have hElen : (enc (derive_nonce nonce_prefix i)
        (build_aad MAGIC VERSION ALGO_AES_GCM_CHUNKED chunk_bytes nonce_prefix
          i c.length) c).length = c.length + 16 := henc _ _ _
    have hbs : recsFrom enc chunk_bytes nonce_prefix i (c :: cs) =
        beBytes 4 c.length ++
          (enc (derive_nonce nonce_prefix i)
            (build_aad MAGIC VERSION ALGO_AES_GCM_CHUNKED chunk_bytes
              nonce_prefix i c.length) c ++
           recsFrom enc chunk_bytes nonce_prefix (i + 1) cs) := by
      simp [recsFrom, record_bytes, List.append_assoc]
    have hbslen : (recsFrom enc chunk_bytes nonce_prefix i (c :: cs)).length =
        4 + (c.length + 16) +
          (recsFrom enc chunk_bytes nonce_prefix (i + 1) cs).length := by
      rw [hbs]
      simp only [List.length_append, beBytes_length, hElen]
      omega
    match fuel with
    | 0 => omega
    | f + 1 =>
      rw [hbs]
      simp only [decryptRecordsFuel]
      rw [List.take_left' (beBytes_length 4 c.length),
        List.drop_left' (beBytes_length 4 c.length), beVal_beBytes,
        Nat.mod_eq_of_lt (by
          have : (256 : Nat) ^ 4 = 2 ^ 32 := by norm_num
          omega)]
      rw [if_neg (by
          intro hnil
          have := congrArg List.length hnil
          simp [beBytes_length] at this),
        if_neg (by
          simp only [List.length_append, beBytes_length]
          omega),
        if_neg (by omega),
        if_neg (by
          simp only [List.length_append, hElen]
          push_neg
          simp [TAG_SIZE]),
        List.take_left' (by rw [hElen]; rfl),
        List.drop_left' (by rw [hElen]; rfl), hdec]
      rw [ih (i + 1) f (by omega) (fun d hd => hmem d (List.mem_cons_of_mem c hd))]
      simp

/-- C5: decrypting a ciphertext produced by `encrypt_file` — parsing the
header and AEAD-decrypting each record in order with the nonce and AAD
derived from the header fields and the record index — succeeds and yields
exactly the original plaintext, for every plaintext, key and in-range
chunk size, and every AEAD pair for which decryption inverts
encryption. -/
theorem c5_round_trip
    (enc : List Nat → List Nat → List Nat → List Nat)
    (dec : List Nat → List Nat → List Nat → Option (List Nat))
    (key nonce_prefix plaintext : List Nat) (chunk_bytes : Nat)
    (henc : ∀ n a p, (enc n a p).length = p.length + 16)
    (hdec : ∀ n a p, dec n a (enc n a p) = some p)
    (hkey : key.length = 32) ( hprefix : nonce_prefix.length = 4)
    (hcb₁ : 1024 ≤ chunk_bytes) (hcb₂ : chunk_bytes ≤ 67108864) :
    ∀ out hashed n,
      encrypt_file enc key nonce_prefix plaintext chunk_bytes =
        .ok (out, hashed, n) →
      decrypt_stream dec out = .ok plaintext := by
  intro out hashed n h
  rw [encrypt_file_eq enc plaintext hkey hprefix hcb₁ hcb₂] at h
  simp only [Except.ok.injEq, Prod.mk.injEq] at h
  obtain ⟨h1, -, -⟩ := h
  subst h1
  unfold decrypt_stream
  rw [parse_header_headerBytes chunk_bytes _ hprefix hcb₁ hcb₂]
  unfold decryptRecords
  rw [List.drop_left' (by
    rw [headerBytes_length chunk_bytes hprefix]; rfl)]
  exact decryptRecordsFuel_recsFrom enc dec chunk_bytes nonce_prefix henc
    hdec (by omega) (chunksOf chunk_bytes plaintext) 0 _ (Nat.le_refl _)
    (chunksOf_mem_length (by omega) plaintext.length plaintext
      (Nat.le_refl _)) |>.trans
    (by rw [chunksOf_flatten (by omega) plaintext.length plaintext
      (Nat.le_refl _)])

/-- Witness for C5 at a concrete input: the concrete ciphertext of
`[3, 1, 4]` decrypts back to `[3, 1, 4]`. -/
theorem c5_round_trip_witness :
    decrypt_stream decW (headerBytes 1024 [4, 3, 2, 1]
      ++ recsFrom encW 1024 [4, 3, 2, 1] 0 (chunksOf 1024 [3, 1, 4])) =
      .ok [3, 1, 4] :=
  c5_round_trip encW decW (List.replicate 32 0) [4, 3, 2, 1] [3, 1, 4] 1024
    (fun n a p => by simp [encW])
    (fun n a p => by simp [encW, decW, List.take_left])
    (by decide) (by decide) (by decide) (by decide)
    (headerBytes 1024 [4, 3, 2, 1]
      ++ recsFrom encW 1024 [4, 3, 2, 1] 0 (chunksOf 1024 [3, 1, 4]))
    (headerBytes 1024 [4, 3, 2, 1]
      ++ recsFrom encW 1024 [4, 3, 2, 1] 0 (chunksOf 1024 [3, 1, 4]))
    3 (by rfl)

/-- C6 counterexample: `_build_header` does not fail for out-of-range
`chunk_bytes` — at `chunk_bytes = 512`, outside [1024, 67108864], with a
4-byte nonce prefix, it succeeds and returns 32 bytes, contradicting the
claim that `build_header` fails with `InvalidParameter` for every
out-of-range `chunk_bytes`. -/
theorem c6_build_header_counterexample :
    build_header 512 [0, 0, 0, 0] = .ok (headerBytes 512 [0, 0, 0, 0]) ∧
    (headerBytes 512 [0, 0, 0, 0]).length = 32 := by
  exact ⟨rfl, by decide⟩

/-- C6 (amended): `_build_header` itself validates only the nonce-prefix
length (failing for any length other than 4, and failing for
`chunk_bytes ≥ 2^32`, which cannot be packed into the 32-bit header
field); for every 4-byte prefix and `chunk_bytes < 2^32` — including
values outside [1024, 67108864] — it returns 32 bytes.  The range check
on `chunk_bytes` is instead performed by `encrypt_file`, which fails
before building a header whenever `chunk_bytes ∉ [1024, 67108864]`. -/
theorem c6_build_header_validation (chunk_bytes : Nat)
    ( nonce_prefix : List Nat) :
    ( nonce_prefix.length ≠ 4 →
      build_header chunk_bytes nonce_prefix =
        .error "nonce_prefix must be 4 bytes") ∧
    ( nonce_prefix.length = 4 → chunk_bytes < 2 ^ 32 →
      build_header chunk_bytes nonce_prefix =
        .ok (headerBytes chunk_bytes nonce_prefix) ∧
      (headerBytes chunk_bytes nonce_prefix).length = 32) ∧
    (∀ enc key plaintext, key.length = 32 →
      chunk_bytes < 1024 ∨ chunk_bytes > 67108864 →
      encrypt_file enc key nonce_prefix plaintext chunk_bytes =
        .error "chunk_bytes must be between 1KB and 64MB") := by
  refine ⟨?_, ?_, ?_⟩
  · intro h
    unfold build_header
    rw [if_pos (by simpa [NONCE_PREFIX_SIZE] using h)]
  · intro h4 h32
    unfold build_header
    rw [if_neg (by simp [NONCE_PREFIX_SIZE, h4]),
      if_neg (by push_neg; omega)]
    exact ⟨rfl, headerBytes_length chunk_bytes h4⟩
  · intro enc key plaintext hkey hrange
    unfold encrypt_file
    rw [if_neg (by omega), if_pos (by omega)]

/-- Witness for the amended C6 at a concrete out-of-range chunk size. -/
theorem c6_build_header_validation_witness :
    (([0, 0, 0, 0] : List Nat).length ≠ 4 →
      build_header 512 [0, 0, 0, 0] = .error "nonce_prefix must be 4 bytes") ∧
    (([0, 0, 0, 0] : List Nat).length = 4 → 512 < 2 ^ 32 →
      build_header 512 [0, 0, 0, 0] = .ok (headerBytes 512 [0, 0, 0, 0]) ∧
      (headerBytes 512 [0, 0, 0, 0]).length = 32) ∧
    (∀ enc key plaintext, key.length = 32 →
      512 < 1024 ∨ 512 > 67108864 →
      encrypt_file enc key [0, 0, 0, 0] plaintext 512 =
        .error "chunk_bytes must be between 1KB and 64MB") :=
  c6_build_header_validation 512 [0, 0, 0, 0]

/-- C7 counterexample: `_load_manifest` performs no value validation — a
manifest whose `format` and `algo` differ from the required constants,
whose `chunk_bytes` is out of range, whose `plaintext_bytes` is negative,
whose `sha256_ciphertext` is not 64 lowercase hex characters and whose
`asset_id` violates `[A-Za-z0-9_-]{1,100}` is accepted unchanged, because
all six required keys are present. -/
theorem c7_load_manifest_counterexample :
    load_manifest
      [("format", JVal.str "bogus"), ("algo", JVal.str "not-a-real-algo"),
       ("chunk_bytes", JVal.int (-5)), ("plaintext_bytes", JVal.int (-1)),
       ("sha256_ciphertext", JVal.str "XYZ"),
       ("asset_id", JVal.str "bad id!")] =
      .ok
      [("format", JVal.str "bogus"), ("algo", JVal.str "not-a-real-algo"),
       ("chunk_bytes", JVal.int (-5)), ("plaintext_bytes", JVal.int (-1)),
       ("sha256_ciphertext", JVal.str "XYZ"),
       ("asset_id", JVal.str "bad id!")] := by
  rfl

/-- C7 (amended): reading a manifest validates only the presence of the
six required fields `{format, algo, chunk_bytes, plaintext_bytes,
sha256_ciphertext, asset_id}` — it succeeds, returning the manifest
unchanged, exactly when all six keys are present, with no validation of
their values; removing any required field yields a `ValidationError`. -/
theorem c7_load_manifest_required_fields (manifest : JObj) :
    (load_manifest manifest = .ok manifest ↔
      ∀ f ∈ required_fields, hasField manifest f = true) ∧
    ((∃ f ∈ required_fields, hasField manifest f = false) →
      load_manifest manifest = .error "Manifest is missing required fields") := by
  have hkey : (required_fields.filter
      (fun f => ! hasField manifest f)).isEmpty = true ↔
      ∀ f ∈ required_fields, hasField manifest f = true := by
    rw [List.isEmpty_iff, List.filter_eq_nil_iff]
    constructor
    · intro h f hf
      have := h f hf
      simpa using this
    · intro h f hf
      simp [h f hf]
  constructor
  · unfold load_manifest
    by_cases h : (required_fields.filter
        (fun f => ! hasField manifest f)).isEmpty
    · rw [if_pos h]
      simp only [true_iff]
      exact hkey.mp h
    · rw [if_neg h]
      constructor
      · intro hcontra
        exact absurd hcontra (by simp)
      · intro hall
        exact absurd (hkey.mpr hall) h
  · intro ⟨f, hf, hmiss⟩
    unfold load_manifest
    rw [if_neg (by
      intro hempty
      have := hkey.mp hempty f hf
      rw [this] at hmiss
      simp at hmiss)]

/-- Witness for the amended C7 at a concrete complete manifest. -/
theorem c7_load_manifest_required_fields_witness :
    (load_manifest
      [("format", JVal.str "tbenc/v1"), ("algo", JVal.str "aes-256-gcm-chunked"),
       ("chunk_bytes", JVal.int 4194304), ("plaintext_bytes", JVal.int 1000),
       ("sha256_ciphertext", JVal.str "ab"), ("asset_id", JVal.str "m1")] =
      .ok
      [("format", JVal.str "tbenc/v1"), ("algo", JVal.str "aes-256-gcm-chunked"),
       ("chunk_bytes", JVal.int 4194304), ("plaintext_bytes", JVal.int 1000),
       ("sha256_ciphertext", JVal.str "ab"), ("asset_id", JVal.str "m1")] ↔
      ∀ f ∈ required_fields, hasField
        [("format", JVal.str "tbenc/v1"), ("algo", JVal.str "aes-256-gcm-chunked"),
         ("chunk_bytes", JVal.int 4194304), ("plaintext_bytes", JVal.int 1000),
         ("sha256_ciphertext", JVal.str "ab"), ("asset_id", JVal.str "m1")] f =
        true) ∧
    ((∃ f ∈ required_fields, hasField
        [("format", JVal.str "tbenc/v1"), ("algo", JVal.str "aes-256-gcm-chunked"),
         ("chunk_bytes", JVal.int 4194304), ("plaintext_bytes", JVal.int 1000),
         ("sha256_ciphertext", JVal.str "ab"), ("asset_id", JVal.str "m1")] f =
        false) →
      load_manifest
        [("format", JVal.str "tbenc/v1"), ("algo", JVal.str "aes-256-gcm-chunked"),
         ("chunk_bytes", JVal.int 4194304), ("plaintext_bytes", JVal.int 1000),
         ("sha256_ciphertext", JVal.str "ab"), ("asset_id", JVal.str "m1")] =
        .error "Manifest is missing required fields") :=
  c7_load_manifest_required_fields
    [("format", JVal.str "tbenc/v1"), ("algo", JVal.str "aes-256-gcm-chunked"),
     ("chunk_bytes", JVal.int 4194304), ("plaintext_bytes", JVal.int 1000),
     ("sha256_ciphertext", JVal.str "ab"), ("asset_id", JVal.str "m1")]

theorem encryptOpsLoop_ops
    (enc : List Nat → List Nat → List Nat → Option (List Nat))
    (chunk_bytes : Nat) ( nonce_prefix : List Nat) (output_path : String) :
    ∀ (cs : List (List Nat)) (i : Nat),
      ∀ op ∈ (encryptOpsLoop enc chunk_bytes nonce_prefix output_path
        i cs).1, op = FsOp.write output_path := by
  intro cs
  induction cs with
  | nil => intro i op hop; simp [encryptOpsLoop] at hop
  | cons c cs ih =>
    intro i op hop
    unfold encryptOpsLoop at hop
    match henc : enc (derive_nonce nonce_prefix i)
        (build_aad MAGIC VERSION ALGO_AES_GCM_CHUNKED chunk_bytes nonce_prefix
          i c.length) c with
    | none =>
      rw [henc] at hop
      simp at hop
    | some cwt =>
      rw [henc] at hop
      simp only [List.mem_cons] at hop
      rcases hop with h | h | h
      · exact h
      · exact h
      · exact ih (i + 1) op h

theorem encrypt_file_ops_ops
    (enc : List Nat → List Nat → List Nat → Option (List Nat))
    (key nonce_prefix plaintext : List Nat) (chunk_bytes : Nat)
    (output_path : String) :
    ∀ op ∈ (encrypt_file_ops enc key nonce_prefix plaintext chunk_bytes
      output_path).1,
      op = FsOp.openw output_path ∨ op = FsOp.write output_path := by
  intro op hop
  unfold encrypt_file_ops at hop
  by_cases hkey : key.length ≠ 32
  · rw [if_pos hkey] at hop
    simp at hop
  · rw [if_neg hkey] at hop
    by_cases hcb : chunk_bytes < 1024 ∨ chunk_bytes > 64 * 1024 * 1024
    · rw [if_pos hcb] at hop
      simp at hop
    · rw [if_neg hcb] at hop
      match hbh : build_header chunk_bytes nonce_prefix with
      | .error e =>
        rw [hbh] at hop
        simp only [List.mem_singleton] at hop
        exact Or.inl hop
      | .ok header =>
        rw [hbh] at hop
        simp only [List.mem_cons] at hop
        rcases hop with h | h | h
        · exact Or.inl h
        · exact Or.inr h
        · exact Or.inr (encryptOpsLoop_ops enc chunk_bytes nonce_prefix
            output_path (chunksOf chunk_bytes plaintext) 0 op h)

/-- C8 counterexample: when the AEAD raises on the very first chunk,
`encrypt_file` has already opened the output file and written the header
into it, and its operation trace contains no remove — the partial
ciphertext stays on disk, contradicting "the ciphertext encoder removes
its temporary output file when encryption fails"; and `write_manifest`
performs no rename at all — it opens the final manifest path directly —
contradicting "the manifest is written atomically by writing to a
temporary path and renaming". -/
theorem c8_no_cleanup_counterexample :
    encrypt_file_ops encNoneW (List.replicate 32 0) [0, 0, 0, 0] [1] 1024
      "model.tbenc" =
      ([FsOp.openw "model.tbenc", FsOp.write "model.tbenc"], false) ∧
    FsOp.remove "model.tbenc" ∉
      (encrypt_file_ops encNoneW (List.replicate 32 0) [0, 0, 0, 0] [1] 1024
        "model.tbenc").1 ∧
    write_manifest_ops "model.manifest.json" =
      [FsOp.openw "model.manifest.json", FsOp.write "model.manifest.json"] ∧
    (∀ op ∈ write_manifest_ops "model.manifest.json",
      op.isRename = false) := by
  refine ⟨by rfl, by decide, rfl, by decide⟩

/-- C8 (amended): `encrypt_file` writes directly to its final output path
and never renames or removes anything, so on failure the partially written
ciphertext remains; `write_manifest` opens and writes the final manifest
path directly, with no temporary file and no rename; however, the manifest
is written only after encryption has succeeded: when encryption fails, no
operation of `encrypt_and_generate_manifest` touches the manifest path,
and on success the manifest operations follow the encryption
operations. -/
theorem c8_failure_artifacts
    (enc : List Nat → List Nat → List Nat → Option (List Nat))
    (key nonce_prefix plaintext : List Nat) (chunk_bytes : Nat)
    (output_path manifest_path : String)
    (hne : output_path ≠ manifest_path) :
    (∀ op ∈ (encrypt_file_ops enc key nonce_prefix plaintext chunk_bytes
        output_path).1,
      op.isRename = false ∧ op.isRemove = false) ∧
    write_manifest_ops manifest_path =
      [FsOp.openw manifest_path, FsOp.write manifest_path] ∧
    (∀ op ∈ write_manifest_ops manifest_path, op.isRename = false) ∧
    ((encrypt_and_generate_manifest_ops enc key nonce_prefix plaintext
        chunk_bytes output_path manifest_path).2 = false →
      ∀ op ∈ (encrypt_and_generate_manifest_ops enc key nonce_prefix
        plaintext chunk_bytes output_path manifest_path).1,
        op.touches manifest_path = false) ∧
    ((encrypt_and_generate_manifest_ops enc key nonce_prefix plaintext
        chunk_bytes output_path manifest_path).2 = true →
      (encrypt_and_generate_manifest_ops enc key nonce_prefix plaintext
        chunk_bytes output_path manifest_path).1 =
        (encrypt_file_ops enc key nonce_prefix plaintext chunk_bytes
          output_path).1 ++ write_manifest_ops manifest_path) := by
  have hshape := encrypt_file_ops_ops enc key nonce_prefix plaintext
    chunk_bytes output_path
  refine ⟨?_, rfl, ?_, ?_, ?_⟩
  · intro op hop
    rcases hshape op hop with h | h <;> subst h <;>
      exact ⟨rfl, rfl⟩
  · intro op hop
    simp only [write_manifest_ops, List.mem_cons, List.not_mem_nil,
      or_false] at hop
    rcases hop with h | h <;> subst h <;> rfl
  · intro hfail op hop
    unfold encrypt_and_generate_manifest_ops at hfail hop
    by_cases hok : (encrypt_file_ops enc key nonce_prefix plaintext
        chunk_bytes output_path).2
    · rw [if_pos hok] at hfail
      simp at hfail
    · rw [if_neg hok] at hop
      rcases hshape op hop with h | h <;> subst h <;>
        simp [FsOp.touches, beq_eq_false_iff_ne, hne]
  · intro hok
    unfold encrypt_and_generate_manifest_ops at hok ⊢
    by_cases h : (encrypt_file_ops enc key nonce_prefix plaintext
        chunk_bytes output_path).2
    · rw [if_pos h]
    · rw [if_neg h] at hok
      simp at hok

/-- Witness for the amended C8 at a concrete failing encryption. -/
theorem c8_failure_artifacts_witness :
    (∀ op ∈ (encrypt_file_ops encNoneW (List.replicate 32 0) [0, 0, 0, 0]
        [1] 1024 "model.tbenc").1,
      op.isRename = false ∧ op.isRemove = false) ∧
    write_manifest_ops "model.manifest.json" =
      [FsOp.openw "model.manifest.json", FsOp.write "model.manifest.json"] ∧
    (∀ op ∈ write_manifest_ops "model.manifest.json",
      op.isRename = false) ∧
    ((encrypt_and_generate_manifest_ops encNoneW (List.replicate 32 0)
        [0, 0, 0, 0] [1] 1024 "model.tbenc" "model.manifest.json").2 =
        false →
      ∀ op ∈ (encrypt_and_generate_manifest_ops encNoneW
        (List.replicate 32 0) [0, 0, 0, 0] [1] 1024 "model.tbenc"
        "model.manifest.json").1,
        op.touches "model.manifest.json" = false) ∧
    ((encrypt_and_generate_manifest_ops encNoneW (List.replicate 32 0)
        [0, 0, 0, 0] [1] 1024 "model.tbenc" "model.manifest.json").2 =
        true →
      (encrypt_and_generate_manifest_ops encNoneW (List.replicate 32 0)
        [0, 0, 0, 0] [1] 1024 "model.tbenc" "model.manifest.json").1 =
        (encrypt_file_ops encNoneW (List.replicate 32 0) [0, 0, 0, 0] [1]
          1024 "model.tbenc").1 ++
          write_manifest_ops "model.manifest.json") :=
  c8_failure_artifacts encNoneW (List.replicate 32 0) [0, 0, 0, 0] [1] 1024
    "model.tbenc" "model.manifest.json" (by decide)

/-- C9 counterexample: a decryption key of 64 uppercase hex characters is
accepted by `validate_hex_string(·, expected_bytes=32)`, contradicting the
claim that only lowercase hex is accepted and uppercase hex letters are
rejected. -/
theorem c9_uppercase_hex_accepted_counterexample :
    validate_hex_string (List.replicate 64 'A') (some 32) = .ok () := by
  rfl

/-- C9 (amended): key-string validation accepts a decryption key exactly
when it is 64 hexadecimal characters of either case: wrong lengths and
characters outside `[0-9a-fA-F]` are rejected with a `ValidationError`,
but uppercase hex letters are accepted alongside lowercase ones. -/
theorem c9_validate_hex_string_spec (hex_string : List Char) :
    (validate_hex_string hex_string (some 32) = .ok () ↔
      hex_string.length = 64 ∧ hex_string.all isHexChar = true) ∧
    (∀ c, isHexChar c = true ↔
      ('0' ≤ c ∧ c ≤ '9') ∨ ('a' ≤ c ∧ c ≤ 'f') ∨ ('A' ≤ c ∧ c ≤ 'F')) := by
  constructor
  · unfold validate_hex_string
    by_cases hemp : hex_string.isEmpty
    · rw [if_pos hemp]
      have : hex_string = [] := List.isEmpty_iff.mp hemp
      subst this
      simp
    · rw [if_neg hemp]
      by_cases hall : hex_string.all isHexChar
      · rw [if_neg (by simp [hall])]
        show (if hex_string.length ≠ 32 * 2 then
            (Except.error "Hex string has the wrong length for the expected bytes"
              : Except String Unit)
          else Except.ok ()) = Except.ok () ↔
          hex_string.length = 64 ∧ hex_string.all isHexChar = true
        by_cases hlen : hex_string.length = 64
        · rw [if_neg (by omega)]
          simp [hlen, hall]
        · rw [if_pos (by omega)]
          simp [hlen]
      · rw [if_pos (by simp [hall])]
        simp [hall]
  · intro c
    simp only [isHexChar, Bool.or_eq_true, Bool.and_eq_true,
      decide_eq_true_eq]
    tauto

/-- Witness for the amended C9 at a concrete 64-character lowercase key. -/
theorem c9_validate_hex_string_spec_witness :
    (validate_hex_string (List.replicate 64 'a') (some 32) = .ok () ↔
      (List.replicate 64 'a').length = 64 ∧
      (List.replicate 64 'a').all isHexChar = true) ∧
    (∀ c, isHexChar c = true ↔
      ('0' ≤ c ∧ c ≤ '9') ∨ ('a' ≤ c ∧ c ≤ 'f') ∨ ('A' ≤ c ∧ c ≤ 'F')) :=
  c9_validate_hex_string_spec (List.replicate 64 'a')

/-- C10: every artifact request whose filename contains `".."` or begins
with `"/"` is answered 400 Invalid filename — for every data directory and
every filesystem state, so no path is constructed and no file is read —
and any served file lies at the join of the data directory with a
traversal-free relative filename. -/
theorem c10_get_artifact_traversal_guard (data_dir : List Char)
    (isfile : List Char → Bool) (filename : List Char) :
    (containsDotDot filename = true ∨ startsWithSlash filename = true →
      get_artifact data_dir isfile filename = BlobResult.invalidFilename) ∧
    (∀ file_path,
      get_artifact data_dir isfile filename = BlobResult.served file_path →
      containsDotDot filename = false ∧ startsWithSlash filename = false ∧
      file_path = data_dir ++ '/' :: filename) := by
  constructor
  · intro h
    unfold get_artifact
    rcases h with h | h <;> rw [if_pos (by simp [h])]
  · intro fp h
    unfold get_artifact at h
    by_cases hdd : containsDotDot filename || startsWithSlash filename
    · rw [if_pos hdd] at h
      exact absurd h (by simp)
    · rw [if_neg hdd] at h
      simp only [Bool.or_eq_true, not_or, Bool.not_eq_true] at hdd
      by_cases hf : isfile (os_path_join data_dir filename)
      · rw [if_neg (by simp [hf])] at h
        simp only [BlobResult.served.injEq] at h
        refine ⟨hdd.1, hdd.2, ?_⟩
        rw [← h]
        unfold os_path_join
        rw [if_neg (by simp [hdd.2])]
      · rw [if_pos (by simp [hf])] at h
        exact absurd h (by simp)

/-- Witness for C10 at a concrete traversal attempt. -/
theorem c10_get_artifact_traversal_guard_witness :
    (containsDotDot ['.', '.', '/', 'e', 't', 'c'] = true ∨
      startsWithSlash ['.', '.', '/', 'e', 't', 'c'] = true →
      get_artifact ['/', 'd', 'a', 't', 'a'] (fun _ => true)
        ['.', '.', '/', 'e', 't', 'c'] = BlobResult.invalidFilename) ∧
    (∀ file_path,
      get_artifact ['/', 'd', 'a', 't', 'a'] (fun _ => true)
        ['.', '.', '/', 'e', 't', 'c'] = BlobResult.served file_path →
      containsDotDot ['.', '.', '/', 'e', 't', 'c'] = false ∧
      startsWithSlash ['.', '.', '/', 'e', 't', 'c'] = false ∧
      file_path = ['/', 'd', 'a', 't', 'a'] ++
        '/' :: ['.', '.', '/', 'e', 't', 'c']) :=
  c10_get_artifact_traversal_guard ['/', 'd', 'a', 't', 'a'] (fun _ => true)
    ['.', '.', '/', 'e', 't', 'c']

end TrustBridge
